import Mathlib

/-!
Verification of the Workspace Mutation Engine (FileManager / Planner / Executor)
of the AI-Agent repository, as a shallow embedding in Lean.

Modelling conventions:
* POSIX paths are segment lists (`List String`); an input path (`RawPath`)
  carries an `absolute` flag plus its raw segments, mirroring the string a
  caller passes to `path.resolve`.  `normSegs` models Node's lexical
  normalization (drops `""` and `"."` segments, a `".."` pops the previous
  segment, at the root it is dropped).
* JS arrays used as stacks (`push`/`pop` at the end, `shift` at the front)
  are modelled as Lean lists with the TOP at the HEAD: `push` is `cons`,
  `pop` takes the head, and `shift` (eviction of the oldest entry) is
  `dropLast`.
* The filesystem is a map from resolved paths to file contents
  (`List String → Option String`); directories, timestamps and console
  output are not modelled.  `fsFail` marks paths on which the underlying
  `fs.writeFile` / `fs.remove` call throws (permission / IO errors); reads
  and existence checks are modelled as total.
* Error messages are modelled by the structured `ErrMsg` type; each
  constructor corresponds to one message template of the source
  (`Path is outside workspace root`, `File already exists`, `File not found`,
  `Search pattern not found`, `Nothing to undo`, `Nothing to redo`,
  `Unknown action`, plus wrapped filesystem errors).
-/

set_option maxHeartbeats 1000000

/-- A user-supplied path: the `absolute` flag tells whether the string
started with `/`; `segs` are its `/`-separated segments. -/
structure RawPath where
  absolute : Bool
  segs : List String
deriving DecidableEq

/-- Node's lexical path normalization on segment lists: empty and `"."`
segments are dropped, `".."` removes the previously accepted segment
(no-op at the root). -/
def normSegs (l : List String) : List String :=
  l.foldl
    (fun acc seg =>
      if seg = "" ∨ seg = "." then acc
      else if seg = ".." then acc.dropLast
      else acc ++ [seg])
    []

/-- `path.resolve(p)`: an absolute path is normalized as is, a relative one
is resolved against the current working directory. -/
def pathResolve (cwd : List String) (p : RawPath) : List String :=
  if p.absolute then normSegs p.segs else normSegs (cwd ++ p.segs)

/-- Strip the common leading segments of two paths (the core of
`path.relative`). -/
def stripCommon : List String → List String → List String × List String
  | a :: as, b :: bs => if a = b then stripCommon as bs else (a :: as, b :: bs)
  | as, bs => (as, bs)

/-- Segments of `path.relative(fromP, toP)` for two absolute paths:
one `".."` per remaining `fromP` segment, then the remaining `toP`
segments. -/
def relSegs (fromP toP : List String) : List String :=
  let st := stripCommon fromP toP
  List.replicate st.1.length ".." ++ st.2

/-- Join segments with `/` (how `path.relative` renders its result). -/
def joinSegs : List String → String
  | [] => ""
  | [s] => s
  | s :: rest => s ++ "/" ++ joinSegs rest

/-- JS `String.startsWith`, as a character-list test. -/
def strStartsWith (s pre : String) : Bool := pre.data.isPrefixOf s.data

/-- `path.isAbsolute` on POSIX: the string starts with `/`. -/
def pathIsAbsolute (s : String) : Bool := strStartsWith s "/"

/-- Structured stand-ins for the error-message strings of the source. -/
inductive ErrMsg where
  | outOfWorkspace (p : RawPath)
  | alreadyExists (p : RawPath)
  | notFound (p : RawPath)
  | patternNotFound (s : String)
  | writeFailed (p : List String)
  | nothingToUndo
  | nothingToRedo
  | unknownAction (a : String)
  | interpreterError (s : String)
deriving DecidableEq

/-- One undo/redo history entry (timestamps are not modelled). -/
structure HistoryEntry where
  type : String
  path : List String
  oldContent : Option String
  newContent : Option String
deriving DecidableEq

/-- One append-only operation-log entry (timestamps are not modelled). -/
structure OpLogEntry where
  type : String
  path : RawPath
deriving DecidableEq

/-- The result object returned by every FileManager operation. -/
structure MutResult where
  success : Bool
  error : Option ErrMsg := none
  content : Option String := none
  overwritten : Option Bool := none
deriving DecidableEq

/-- The FileManager instance state plus the bits of the process environment
it reads (`cwd`) and the filesystem it acts on (`fs`, `fsFail`). -/
structure FMState where
  operations : List OpLogEntry
  undoStack : List HistoryEntry
  redoStack : List HistoryEntry
  workspaceRoot : List String
  allowOutsideWorkspace : Bool
  maxUndoHistory : Nat
  cwd : List String
  fs : List String → Option String
  fsFail : List String → Bool

/-- `resolveWithinWorkspace`: resolve via `path.resolve` (against the cwd),
then reject when `path.relative(workspaceRoot, resolved)` starts with `..`
or is absolute, unless `allowOutsideWorkspace` is set. -/
def resolveWithinWorkspace (s : FMState) (filePath : RawPath) :
    Except ErrMsg (List String) :=
  let resolvedPath := pathResolve s.cwd filePath
  let relative := joinSegs (relSegs s.workspaceRoot resolvedPath)
  if !s.allowOutsideWorkspace &&
      (strStartsWith relative ".." || pathIsAbsolute relative) then
    Except.error (ErrMsg.outOfWorkspace filePath)
  else
    Except.ok resolvedPath

/-- Split a character list at newline characters (accumulator holds the
current line reversed). -/
def splitCharAux : List Char → List Char → List (List Char)
  | [], acc => [acc.reverse]
  | c :: rest, acc =>
    if c = '\n' then acc.reverse :: splitCharAux rest []
    else splitCharAux rest (c :: acc)

/-- JS `content.split('\n')`: split a string into its lines (an empty
string yields one empty line, a trailing newline yields a final empty
line). -/
def splitLines (s : String) : List String :=
  (splitCharAux s.data []).map fun l => String.mk l

/-- Point update of the filesystem map (`none` removes the file). -/
def setFS (fs : List String → Option String) (p : List String)
    (v : Option String) : List String → Option String :=
  fun q => if q = p then v else fs q

/-- `pushHistory`: push onto the undo stack, evict the oldest entry when the
configured bound is exceeded, and clear the redo stack. -/
def pushHistory (s : FMState) (entry : HistoryEntry) : FMState :=
  let u := entry :: s.undoStack
  { s with
    undoStack := if u.length > s.maxUndoHistory then u.dropLast else u,
    redoStack := [] }

/-- The common success tail of `createFile`/`editFile`/`deleteFile`: write
the new content (`none` = remove), append the operation-log entry, then
`pushHistory`. -/
def applyWrite (s : FMState) (ty : String) (filePath : RawPath)
    (resolvedPath : List String) (oldC newC : Option String) : FMState :=
  pushHistory
    { s with
      fs := setFS s.fs resolvedPath newC,
      operations := ⟨ty, filePath⟩ :: s.operations }
    ⟨ty, resolvedPath, oldC, newC⟩

/-- Options of `createFile` (the `showDiff` option only affects console
output and is not modelled). -/
structure CreateOpts where
  overwrite : Bool := false
deriving DecidableEq

/-- `createFile`. -/
def createFile (s : FMState) (filePath : RawPath) (content : String)
    (options : CreateOpts) : MutResult × FMState :=
  match resolveWithinWorkspace s filePath with
  | .error e => ({ success := false, error := some e }, s)
  | .ok resolvedPath =>
    if (s.fs resolvedPath).isSome && !options.overwrite then
      ({ success := false, error := some (ErrMsg.alreadyExists filePath) }, s)
    else if s.fsFail resolvedPath then
      ({ success := false, error := some (ErrMsg.writeFailed resolvedPath) }, s)
    else
      ({ success := true, overwritten := some (s.fs resolvedPath).isSome },
        applyWrite s (if (s.fs resolvedPath).isSome then "overwrite" else "create")
          filePath resolvedPath (s.fs resolvedPath) (some content))

/-- `readFile` (no history or log side effect). -/
def readFile (s : FMState) (filePath : RawPath) : MutResult × FMState :=
  match resolveWithinWorkspace s filePath with
  | .error e => ({ success := false, error := some e }, s)
  | .ok resolvedPath =>
    match s.fs resolvedPath with
    | none => ({ success := false, error := some (ErrMsg.notFound filePath) }, s)
    | some content => ({ success := true, content := some content }, s)

/-- Options of `editFile`; `line := none` models a missing or non-integer
`options.line` (the source gates on `Number.isInteger`). -/
structure EditOpts where
  mode : String
  newContent : String := ""
  line : Option Int := none
  search : String := ""
  replace : String := ""
deriving DecidableEq

/-- The index at which `Array.prototype.splice(start, 0, x)` inserts:
negative values count back from the end (clamped at 0), values past the
end clamp to the length. -/
def spliceIndex (len : Nat) (i : Int) : Nat :=
  if i < 0 then len - min (-i).toNat len else min i.toNat len

/-- Does `content` contain `search` as a contiguous substring
(JS `String.includes`)? -/
def containsSub : List Char → List Char → Bool
  | [], pat => pat.isEmpty
  | c :: t, pat => pat.isPrefixOf (c :: t) || containsSub t pat

/-- The pure content transformation of `editFile` (the body of its
mode dispatch); `find-replace` fails when the search pattern is absent,
an unknown mode leaves the content unchanged. -/
def editContent (oldContent : String) (options : EditOpts) :
    Except ErrMsg String :=
  if options.mode = "replace" then .ok options.newContent
  else if options.mode = "insert" then
    let lines := splitLines oldContent
    let position :=
      match options.line with
      | some i => spliceIndex lines.length i
      | none => lines.length
    .ok (String.intercalate "\n"
      (lines.take position ++ [options.newContent] ++ lines.drop position))
  else if options.mode = "find-replace" then
    if containsSub oldContent.data options.search.data then
      .ok (oldContent.replace options.search options.replace)
    else .error (ErrMsg.patternNotFound options.search)
  else if options.mode = "append" then
    .ok (oldContent ++ "\n" ++ options.newContent)
  else .ok oldContent

/-- `editFile`. -/
def editFile (s : FMState) (filePath : RawPath) (options : EditOpts) :
    MutResult × FMState :=
  match resolveWithinWorkspace s filePath with
  | .error e => ({ success := false, error := some e }, s)
  | .ok resolvedPath =>
    match s.fs resolvedPath with
    | none => ({ success := false, error := some (ErrMsg.notFound filePath) }, s)
    | some oldContent =>
      match editContent oldContent options with
      | .error e => ({ success := false, error := some e }, s)
      | .ok content =>
        if s.fsFail resolvedPath then
          ({ success := false, error := some (ErrMsg.writeFailed resolvedPath) }, s)
        else
          ({ success := true },
            applyWrite s "edit" filePath resolvedPath (some oldContent)
              (some content))

/-- `deleteFile`. -/
def deleteFile (s : FMState) (filePath : RawPath) : MutResult × FMState :=
  match resolveWithinWorkspace s filePath with
  | .error e => ({ success := false, error := some e }, s)
  | .ok resolvedPath =>
    match s.fs resolvedPath with
    | none => ({ success := false, error := some (ErrMsg.notFound filePath) }, s)
    | some oldContent =>
      if s.fsFail resolvedPath then
        ({ success := false, error := some (ErrMsg.writeFailed resolvedPath) }, s)
      else
        ({ success := true },
          applyWrite s "delete" filePath resolvedPath (some oldContent) none)

/-- `listFiles`.  Directory enumeration and the ignore list are read-only
and not representable over the content-map filesystem; the model keeps the
two facts the claims depend on: the sandbox check runs first, and the
operation never mutates any state. -/
def listFiles (s : FMState) (dirPath : RawPath) : MutResult × FMState :=
  match resolveWithinWorkspace s dirPath with
  | .error e => ({ success := false, error := some e }, s)
  | .ok _ => ({ success := true }, s)

/-- `undo`: the entry is popped BEFORE the guarded replay (as in the
source); an entry whose replay throws is therefore lost. -/
def undo (s : FMState) : MutResult × FMState :=
  match s.undoStack with
  | [] => ({ success := false, error := some ErrMsg.nothingToUndo }, s)
  | op :: rest =>
    if s.fsFail op.path then
      ({ success := false, error := some (ErrMsg.writeFailed op.path) },
        { s with undoStack := rest })
    else
      ({ success := true },
        { s with
          undoStack := rest,
          fs := setFS s.fs op.path op.oldContent,
          redoStack := op :: s.redoStack })

/-- `redo`: symmetric to `undo`; note that the push back onto the undo
stack is a plain push (no bound check, no redo-stack clearing). -/
def redo (s : FMState) : MutResult × FMState :=
  match s.redoStack with
  | [] => ({ success := false, error := some ErrMsg.nothingToRedo }, s)
  | op :: rest =>
    if s.fsFail op.path then
      ({ success := false, error := some (ErrMsg.writeFailed op.path) },
        { s with redoStack := rest })
    else
      ({ success := true },
        { s with
          redoStack := rest,
          fs := setFS s.fs op.path op.newContent,
          undoStack := op :: s.undoStack })

/-- `n` successive `undo()` calls. -/
def undoN : Nat → FMState → FMState
  | 0, s => s
  | n + 1, s => undoN n (undo s).2

/-- `n` successive `redo()` calls. -/
def redoN : Nat → FMState → FMState
  | 0, s => s
  | n + 1, s => redoN n (redo s).2

/-- The out-list of `computeSimpleDiff`: for each index up to the longer
line count, differing lines emit the old line as a removal and the new
line as an addition (terminal color codes are abstracted away). -/
def diffOut (oldText newText : String) : List String :=
  let oldLines := splitLines oldText
  let newLines := splitLines newText
  (List.range (max oldLines.length newLines.length)).flatMap
    (fun i =>
      if oldLines[i]? = newLines[i]? then []
      else
        (match oldLines[i]? with
          | some a => ["- " ++ a]
          | none => []) ++
        (match newLines[i]? with
          | some b => ["+ " ++ b]
          | none => []))

/-- `computeSimpleDiff` joins the emitted lines with newlines. -/
def computeSimpleDiff (oldText newText : String) : String :=
  String.intercalate "\n" (diffOut oldText newText)

/-- A renderable diff item, as the spec describes the DiffEngine output. -/
inductive DiffItem where
  | removal (line : String)
  | addition (line : String)
deriving DecidableEq

/-- Written from the spec's words (§4.2): a positional line-by-line
comparison up to the longer length; at each differing index emit a removal
of the old line (when defined) and an addition of the new line (when
defined); identical lines at the same index are not emitted. -/
def positionalDiffSpec (oldLines newLines : List String) : List DiffItem :=
  (List.range (max oldLines.length newLines.length)).flatMap
    (fun i =>
      if oldLines[i]? = newLines[i]? then []
      else
        (match oldLines[i]? with
          | some a => [DiffItem.removal a]
          | none => []) ++
        (match newLines[i]? with
          | some b => [DiffItem.addition b]
          | none => []))

/-- How the source renders a diff item. -/
def renderDiffItem : DiffItem → String
  | .removal a => "- " ++ a
  | .addition b => "+ " ++ b

/-! ### Executor and Planner -/

/-- A parsed action object from the interpreter's JSON output.  A `create`
action may carry any requested overwrite flag; the Executor never reads
it.  `mode`/`search` may be absent in the JSON (`Option`). -/
inductive PAction where
  | create (path : RawPath) (content : String) (requestedOverwrite : Bool)
  | read (path : RawPath)
  | edit (path : RawPath) (mode : Option String) (content : String)
      (search : Option String)
  | delete (path : RawPath)
  | unknown (name : String)
deriving DecidableEq

/-- JS `a || b` on an optional string: an absent or empty string falls back
to the default. -/
def jsOrStr (a : Option String) (b : String) : String :=
  match a with
  | none => b
  | some s => if s = "" then b else s

/-- `Executor.executeAction`: dispatch one action to the FileManager.  The
`create` case always passes `overwrite: true`; `edit` passes no `replace`
field, so JS supplies `undefined`, which string contexts coerce to
`"undefined"`. -/
def executeAction (action : PAction) (fileManager : FMState) :
    MutResult × FMState :=
  match action with
  | .create p c _req => createFile fileManager p c { overwrite := true }
  | .read p => readFile fileManager p
  | .edit p mode c search =>
      editFile fileManager p
        { mode := jsOrStr mode "replace", newContent := c,
          search := search.getD "undefined", replace := "undefined" }
  | .delete p => deleteFile fileManager p
  | .unknown name =>
      ({ success := false, error := some (ErrMsg.unknownAction name) },
        fileManager)

/-- The result object of `Executor.executeStep`. -/
structure StepResult where
  success : Bool
  error : Option ErrMsg := none
  actions : Nat := 0
deriving DecidableEq

/-- The inner action loop of `executeStep`: run the parsed actions in
order, stopping at the first failure (earlier actions of the step stay
applied). -/
def runActions (fileManager : FMState) (k : Nat) :
    List PAction → StepResult × FMState
  | [] => ({ success := true, actions := k }, fileManager)
  | a :: rest =>
    let r := executeAction a fileManager
    if r.1.success then runActions r.2 (k + 1) rest
    else ({ success := false, error := r.1.error }, r.2)

/-- `Executor.executeStep`: the interpreter call

    `groqClient.sendMessage` + `parseActions`

is the external StepInterpreter collaborator (spec §6); its outcome for
the step is supplied as `outcome` — either a failure or the parsed action
list.  A failed call fails the step; otherwise the actions run in order. -/
def executeStep (outcome : Except ErrMsg (List PAction))
    (fileManager : FMState) : StepResult × FMState :=
  match outcome with
  | .error e => ({ success := false, error := some e }, fileManager)
  | .ok actions => runActions fileManager 0 actions

/-- The result object of `Planner.executePlan`: the success return carries
no `completedSteps` field. -/
structure PlanResult where
  success : Bool
  completedSteps : Option Nat := none
  results : List StepResult := []
deriving DecidableEq

/-- The step loop of `Planner.executePlan`: steps run strictly in index
order; a failing step returns immediately with the index as the completed
count and the results gathered so far (`acc` is kept reversed). -/
def planLoop (interp : Nat → Except ErrMsg (List PAction)) :
    FMState → Nat → List String → List StepResult → PlanResult × FMState
  | fm, _i, [], acc => ({ success := true, results := acc.reverse }, fm)
  | fm, i, _step :: rest, acc =>
    let r := executeStep (interp i) fm
    if r.1.success then planLoop interp r.2 (i + 1) rest (r.1 :: acc)
    else
      ({ success := false, completedSteps := some i,
          results := (r.1 :: acc).reverse }, r.2)

/-- `Planner.executePlan` applied to a found plan's step list; `interp i`
is the StepInterpreter outcome for step index `i`. -/
def executePlan (interp : Nat → Except ErrMsg (List PAction))
    (fm : FMState) (steps : List String) : PlanResult × FMState :=
  planLoop interp fm 0 steps []

/-- The FileManager state reached after the first `k` steps of a plan run
starting at absolute step index `i`. -/
def fmAfter (interp : Nat → Except ErrMsg (List PAction)) (fm : FMState)
    (i : Nat) : Nat → FMState
  | 0 => fm
  | k + 1 => (executeStep (interp (i + k)) (fmAfter interp fm i k)).2

/-! ### Mutation sequences and reachable states -/

/-- A forward mutation (the undoable operations: create / edit / delete). -/
inductive Mutation where
  | create (p : RawPath) (content : String) (options : CreateOpts)
  | edit (p : RawPath) (options : EditOpts)
  | delete (p : RawPath)
deriving DecidableEq

/-- Apply one mutation. -/
def applyMut (s : FMState) : Mutation → MutResult × FMState
  | .create p c o => createFile s p c o
  | .edit p o => editFile s p o
  | .delete p => deleteFile s p

/-- Did every mutation of the sequence report success? -/
def allOk (s : FMState) : List Mutation → Bool
  | [] => true
  | m :: ms => (applyMut s m).1.success && allOk (applyMut s m).2 ms

/-- Run a mutation sequence (threading the state). -/
def runMuts (s : FMState) : List Mutation → FMState
  | [] => s
  | m :: ms => runMuts (applyMut s m).2 ms

/-- Any public FileManager operation. -/
inductive FMOp where
  | create (p : RawPath) (content : String) (options : CreateOpts)
  | read (p : RawPath)
  | edit (p : RawPath) (options : EditOpts)
  | delete (p : RawPath)
  | list (p : RawPath)
  | undoOp
  | redoOp
deriving DecidableEq

/-- Apply one operation (dropping the result object). -/
def applyOp (s : FMState) : FMOp → FMState
  | .create p c o => (createFile s p c o).2
  | .read p => (readFile s p).2
  | .edit p o => (editFile s p o).2
  | .delete p => (deleteFile s p).2
  | .list p => (listFiles s p).2
  | .undoOp => (undo s).2
  | .redoOp => (redo s).2

/-- Run an operation sequence. -/
def runOps (s : FMState) : List FMOp → FMState
  | [] => s
  | op :: ops => runOps (applyOp s op) ops

/-! ### Proof infrastructure for the undo/redo round trip -/

/-- Undo every stacked entry, top first. -/
def revertAll : List HistoryEntry → (List String → Option String) →
    List String → Option String
  | [], F => F
  | e :: u, F => revertAll u (setFS F e.path e.oldContent)

/-- Redo a list of entries in order. -/
def redoAll : List HistoryEntry → (List String → Option String) →
    List String → Option String
  | [], F => F
  | e :: r, F => redoAll r (setFS F e.path e.newContent)

/-- The undo-stack coherence invariant: undoing and then redoing the top
entry reproduces the current filesystem, recursively down the stack. -/
def StackInv : List HistoryEntry → (List String → Option String) → Prop
  | [], _ => True
  | e :: u, F =>
      setFS (setFS F e.path e.oldContent) e.path e.newContent = F ∧
      StackInv u (setFS F e.path e.oldContent)

/-- Shape of the state change of one successful mutation: some history
entry whose `oldContent` is the pre-state content of its path, with the
path writable, and the new state is exactly write + log + `pushHistory`. -/
def MutOK (s s' : FMState) : Prop :=
  ∃ (e : HistoryEntry) (le : OpLogEntry),
    e.oldContent = s.fs e.path ∧ s.fsFail e.path = false ∧
    s' = pushHistory
      { s with
        fs := setFS s.fs e.path e.newContent,
        operations := le :: s.operations } e

/-- The bounded-history invariant: the two stacks jointly never hold more
than `maxUndoHistory` entries. -/
def BoundInv (s : FMState) : Prop :=
  s.undoStack.length + s.redoStack.length ≤ s.maxUndoHistory

/-- Is the result error an already-exists error? -/
def isAlreadyExistsErr : Option ErrMsg → Bool
  | some (.alreadyExists _) => true
  | _ => false

/-! ### Concrete states for witnesses and counterexamples -/

/-- A freshly constructed FileManager over an empty filesystem with
workspace root `/w`, the process also running in `/w`. -/
def wsFresh : FMState :=
  { operations := [], undoStack := [], redoStack := [],
    workspaceRoot := ["w"], allowOutsideWorkspace := false,
    maxUndoHistory := 50, cwd := ["w"],
    fs := fun _ => none, fsFail := fun _ => false }

/-- Same manager with the escape flag set and the process running in `/c`
(different from the workspace root). -/
def wsOtherCwd : FMState :=
  { wsFresh with cwd := ["c"], allowOutsideWorkspace := true }

/-- A manager holding one file `/w/f` with three lines. -/
def wsWithFile : FMState :=
  { wsFresh with
    fs := fun q => if q = ["w", "f"] then some "a\nb\nc" else none }

/-- A manager whose undo stack holds an entry for `/w/a`, while the
filesystem refuses writes to `/w/a` (e.g. the file was made read-only
after the edit). -/
def wsUndoBlocked : FMState :=
  { wsFresh with
    undoStack := [⟨"edit", ["w", "a"], some "old", some "new"⟩],
    fs := fun q => if q = ["w", "a"] then some "new" else none,
    fsFail := fun q => q = ["w", "a"] }

/-- Three mutations: create `/w/a`, append to it, create `/w/b`. -/
def msRoundTrip : List Mutation :=
  [ Mutation.create ⟨false, ["a"]⟩ "one" {},
    Mutation.edit ⟨false, ["a"]⟩ { mode := "append", newContent := "two" },
    Mutation.create ⟨false, ["b"]⟩ "bee" {} ]

/-- An interpreter oracle for a three-step plan whose second step tries to
delete a missing file and therefore fails. -/
def interpFailAt1 : Nat → Except ErrMsg (List PAction) := fun i =>
  if i = 0 then .ok [PAction.create ⟨false, ["p"]⟩ "hi" true]
  else if i = 1 then .ok [PAction.delete ⟨false, ["missing"]⟩]
  else .ok []

/-- Five operations against a bound of two: three creates of `/w/a`, an
undo, a redo. -/
def opsBound : List FMOp :=
  [ FMOp.create ⟨false, ["a"]⟩ "1" {},
    FMOp.create ⟨false, ["a"]⟩ "2" { overwrite := true },
    FMOp.create ⟨false, ["a"]⟩ "3" { overwrite := true },
    FMOp.undoOp, FMOp.redoOp ]

/-! ## Helper lemmas -/

theorem setFS_setFS (F : List String → Option String) (p : List String)
    (a b : Option String) : setFS (setFS F p a) p b = setFS F p b := by
  funext q
  unfold setFS
  by_cases h : q = p <;> simp [h]

theorem setFS_self (F : List String → Option String) (p : List String) :
    setFS F p (F p) = F := by
  funext q
  unfold setFS
  by_cases h : q = p <;> simp [h]

theorem resolve_error_shape (s : FMState) (p : RawPath) (e : ErrMsg)
    (h : resolveWithinWorkspace s p = .error e) :
    e = ErrMsg.outOfWorkspace p := by
  simp only [resolveWithinWorkspace] at h
  split at h
  · injection h with h
    exact h.symm
  · cases h

theorem createFile_fail_eq (s : FMState) (p : RawPath) (c : String)
    (o : CreateOpts) (h : (createFile s p c o).1.success = false) :
    (createFile s p c o).2 = s := by
  unfold createFile at *
  split at h
  · rfl
  · rename_i rp hrp
    by_cases h1 : ((s.fs rp).isSome && !o.overwrite) = true
    · simp [h1]
    · by_cases h2 : s.fsFail rp = true
      · simp [h1, h2]
      · simp [h1, h2] at h

theorem createFile_success_mutOK (s : FMState) (p : RawPath) (c : String)
    (o : CreateOpts) (h : (createFile s p c o).1.success = true) :
    MutOK s (createFile s p c o).2 := by
  unfold createFile at *
  split at h
  · simp at h
  · rename_i rp hrp
    by_cases h1 : ((s.fs rp).isSome && !o.overwrite) = true
    · simp [h1] at h
    · by_cases h2 : s.fsFail rp = true
      · simp [h1, h2] at h
      · exact ⟨⟨if (s.fs rp).isSome then "overwrite" else "create", rp,
          s.fs rp, some c⟩,
          ⟨if (s.fs rp).isSome then "overwrite" else "create", p⟩,
          rfl, by simpa using h2, by simp [h1, h2, applyWrite]⟩

theorem editFile_fail_eq (s : FMState) (p : RawPath) (o : EditOpts)
    (h : (editFile s p o).1.success = false) : (editFile s p o).2 = s := by
  unfold editFile at *
  split at h
  · rfl
  · rename_i rp hrp
    split at h
    · rfl
    · rename_i oldC hold
      split at h
      · rfl
      · rename_i newC hnew
        by_cases h2 : s.fsFail rp = true
        · simp [h2]
        · simp [h2] at h

theorem editFile_success_mutOK (s : FMState) (p : RawPath) (o : EditOpts)
    (h : (editFile s p o).1.success = true) : MutOK s (editFile s p o).2 := by
  unfold editFile at *
  split at h
  · simp at h
  · rename_i rp hrp
    split at h
    · simp at h
    · rename_i oldC hold
      split at h
      · simp at h
      · rename_i newC hnew
        by_cases h2 : s.fsFail rp = true
        · simp [h2] at h
        · exact ⟨⟨"edit", rp, some oldC, some newC⟩, ⟨"edit", p⟩,
            by simp [hold], by simpa using h2, by simp [h2, applyWrite]⟩

theorem deleteFile_fail_eq (s : FMState) (p : RawPath)
    (h : (deleteFile s p).1.success = false) : (deleteFile s p).2 = s := by
  unfold deleteFile at *
  split at h
  · rfl
  · rename_i rp hrp
    split at h
    · rfl
    · rename_i oldC hold
      by_cases h2 : s.fsFail rp = true
      · simp [h2]
      · simp [h2] at h

theorem deleteFile_success_mutOK (s : FMState) (p : RawPath)
    (h : (deleteFile s p).1.success = true) : MutOK s (deleteFile s p).2 := by
  unfold deleteFile at *
  split at h
  · simp at h
  · rename_i rp hrp
    split at h
    · simp at h
    · rename_i oldC hold
      by_cases h2 : s.fsFail rp = true
      · simp [h2] at h
      · exact ⟨⟨"delete", rp, some oldC, none⟩, ⟨"delete", p⟩,
          by simp [hold], by simpa using h2, by simp [h2, applyWrite]⟩

theorem readFile_state_eq (s : FMState) (p : RawPath) :
    (readFile s p).2 = s := by
  unfold readFile
  split
  · rfl
  · split <;> rfl

theorem listFiles_state_eq (s : FMState) (p : RawPath) :
    (listFiles s p).2 = s := by
  unfold listFiles
  split <;> rfl

theorem undo_empty (s : FMState) (h : s.undoStack = []) :
    undo s = ({ success := false, error := some ErrMsg.nothingToUndo }, s) := by
  unfold undo
  rw [h]

theorem redo_empty (s : FMState) (h : s.redoStack = []) :
    redo s = ({ success := false, error := some ErrMsg.nothingToRedo }, s) := by
  unfold redo
  rw [h]

theorem undo_fail_shape (s : FMState) (h : (undo s).1.success = false) :
    (undo s).2.fs = s.fs ∧ (undo s).2.operations = s.operations ∧
    (undo s).2.redoStack = s.redoStack ∧
    (undo s).2.undoStack = s.undoStack.tail := by
  match hst : s.undoStack with
  | [] => simp [undo, hst]
  | op :: rest =>
    by_cases hf : s.fsFail op.path = true
    · simp [undo, hst, hf]
    · simp [undo, hst, hf] at h

theorem redo_fail_shape (s : FMState) (h : (redo s).1.success = false) :
    (redo s).2.fs = s.fs ∧ (redo s).2.operations = s.operations ∧
    (redo s).2.undoStack = s.undoStack ∧
    (redo s).2.redoStack = s.redoStack.tail := by
  match hst : s.redoStack with
  | [] => simp [redo, hst]
  | op :: rest =>
    by_cases hf : s.fsFail op.path = true
    · simp [redo, hst, hf]
    · simp [redo, hst, hf] at h

/-! ## C9: DiffEngine positional comparison -/

/-- C9 (confirmed): the diff is a positional line-by-line comparison up to
the longer line count — at each index where the lines differ it emits a
removal of the old line (when defined) and an addition of the new line
(when defined); identical lines at the same index are not emitted; and
diffing `"x\ny"` against `"z\ny"` emits only the removal of `"x"` and the
addition of `"z"`. -/
theorem computeSimpleDiff_positional :
    ∀ oldText newText : String,
      (diffOut oldText newText =
        (positionalDiffSpec (splitLines oldText) (splitLines newText)).map
          renderDiffItem) ∧
      computeSimpleDiff "x\ny" "z\ny" = "- x\n+ z" := by
  intro o n
  constructor
  · simp only [diffOut, positionalDiffSpec, List.map_flatMap]
    congr 1
    funext i
    by_cases h : (splitLines o)[i]? = (splitLines n)[i]?
    · simp [h]
    · simp only [if_neg h, List.map_append]
      cases (splitLines o)[i]? <;> cases (splitLines n)[i]? <;>
        simp [renderDiffItem]
  · decide

/-! ## C10: Executor forces overwrite on create actions -/

/-- C10 (confirmed): during plan execution the Executor maps every
`create` action to `createFile` with `overwrite` forced to `true`
(whatever the action requested), so a create action over an existing path
never fails with an already-exists error. -/
theorem executor_create_forces_overwrite :
    ∀ (fm : FMState) (p : RawPath) (c : String) (req : Bool),
      (executeAction (PAction.create p c req) fm =
        createFile fm p c { overwrite := true }) ∧
      isAlreadyExistsErr (executeAction (PAction.create p c req) fm).1.error
        = false := by
  intro fm p c req
  refine ⟨rfl, ?_⟩
  show isAlreadyExistsErr (createFile fm p c { overwrite := true }).1.error = false
  unfold createFile
  split
  · rename_i e he
    have := resolve_error_shape fm p e he
    subst this
    simp [isAlreadyExistsErr]
  · rename_i rp hrp
    by_cases h2 : fm.fsFail rp = true
    · simp [h2, isAlreadyExistsErr]
    · simp [h2, isAlreadyExistsErr]

/-! ## C5: a new mutation invalidates redo history -/

/-- C5 (confirmed): every `pushHistory` (performed by each successful
mutation) empties the redo stack; in particular after an `undo()` followed
by a fresh successful `createFile`, `redo()` fails with the
nothing-to-redo error. -/
theorem push_invalidates_redo :
    (∀ (s : FMState) (e : HistoryEntry), (pushHistory s e).redoStack = []) ∧
    (∀ (s : FMState) (p : RawPath) (c : String) (o : CreateOpts),
      (createFile (undo s).2 p c o).1.success = true →
      (redo (createFile (undo s).2 p c o).2).1.success = false ∧
      (redo (createFile (undo s).2 p c o).2).1.error =
        some ErrMsg.nothingToRedo) := by
  constructor
  · intro s e
    rfl
  · intro s p c o h
    obtain ⟨e, le, _, _, hstate⟩ := createFile_success_mutOK _ p c o h
    have hredo : (createFile (undo s).2 p c o).2.redoStack = [] := by
      rw [hstate]
      rfl
    rw [redo_empty _ hredo]
    exact ⟨rfl, rfl⟩

/-! ## C7: atomicity of failing operations -/

/-- C7 counterexample: an `undo` that fails during filesystem replay still
pops the entry — the undo stack has changed although the operation
returned a failure result. -/
theorem undo_failure_not_atomic_cx :
    (undo wsUndoBlocked).1.success = false ∧
    (undo wsUndoBlocked).2.undoStack ≠ wsUndoBlocked.undoStack := by
  exact ⟨by decide, by decide⟩

/-- C7 (corrected): create/edit/delete are atomic on failure (the whole
state is unchanged) and read/list never change state; undo/redo failing on
an empty stack leave the state unchanged, but an undo/redo that fails
during filesystem replay loses the popped entry from its stack, while the
filesystem, the operation log and the other stack are unchanged. -/
theorem mutation_atomicity :
    (∀ (s : FMState) (p : RawPath) (c : String) (o : CreateOpts),
      (createFile s p c o).1.success = false → (createFile s p c o).2 = s) ∧
    (∀ (s : FMState) (p : RawPath) (o : EditOpts),
      (editFile s p o).1.success = false → (editFile s p o).2 = s) ∧
    (∀ (s : FMState) (p : RawPath),
      (deleteFile s p).1.success = false → (deleteFile s p).2 = s) ∧
    (∀ (s : FMState) (p : RawPath), (readFile s p).2 = s) ∧
    (∀ (s : FMState) (p : RawPath), (listFiles s p).2 = s) ∧
    (∀ s : FMState, s.undoStack = [] → (undo s).2 = s) ∧
    (∀ s : FMState, s.redoStack = [] → (redo s).2 = s) ∧
    (∀ s : FMState, (undo s).1.success = false →
      (undo s).2.fs = s.fs ∧ (undo s).2.operations = s.operations ∧
      (undo s).2.redoStack = s.redoStack ∧
      (undo s).2.undoStack = s.undoStack.tail) ∧
    (∀ s : FMState, (redo s).1.success = false →
      (redo s).2.fs = s.fs ∧ (redo s).2.operations = s.operations ∧
      (redo s).2.undoStack = s.undoStack ∧
      (redo s).2.redoStack = s.redoStack.tail) := by
  refine ⟨createFile_fail_eq, editFile_fail_eq, deleteFile_fail_eq,
    readFile_state_eq, listFiles_state_eq, ?_, ?_,
    undo_fail_shape, redo_fail_shape⟩
  · intro s h
    rw [undo_empty s h]
  · intro s h
    rw [redo_empty s h]

/-! ## C2: what relative paths resolve against -/

/-- C2 counterexample: with the workspace root `/w` and the process
running in `/c` (escape flag set so resolution succeeds), the relative
path `f` resolves to `/c/f` — not to `/w/f`, the normalization of the
workspace root joined with the input. -/
theorem resolve_not_against_root_cx :
    resolveWithinWorkspace wsOtherCwd ⟨false, ["f"]⟩ = Except.ok ["c", "f"] ∧
    normSegs (wsOtherCwd.workspaceRoot ++ ["f"]) = ["w", "f"] ∧
    (["c", "f"] : List String) ≠ ["w", "f"] := by
  exact ⟨by rfl, by decide, by decide⟩

/-- C2 (corrected): `resolveWithinWorkspace` resolves a relative path
against the process current working directory (`path.resolve` semantics),
not against the workspace root; only when the two coincide does the
returned path equal the normalization of the root joined with the
input. -/
theorem resolve_relative_against_cwd :
    ∀ (s : FMState) (p : RawPath), p.absolute = false →
      (∀ r, resolveWithinWorkspace s p = Except.ok r →
        r = normSegs (s.cwd ++ p.segs)) ∧
      (s.allowOutsideWorkspace = true →
        resolveWithinWorkspace s p = Except.ok (normSegs (s.cwd ++ p.segs))) ∧
      (s.cwd = s.workspaceRoot →
        ∀ r, resolveWithinWorkspace s p = Except.ok r →
          r = normSegs (s.workspaceRoot ++ p.segs)) := by
  intro s p habs
  have hres : pathResolve s.cwd p = normSegs (s.cwd ++ p.segs) := by
    unfold pathResolve
    rw [habs]
    simp
  have main : ∀ r, resolveWithinWorkspace s p = Except.ok r →
      r = normSegs (s.cwd ++ p.segs) := by
    intro r hr
    simp only [resolveWithinWorkspace] at hr
    split at hr
    · cases hr
    · injection hr with hr
      rw [← hr, hres]
  refine ⟨main, ?_, ?_⟩
  · intro hflag
    simp only [resolveWithinWorkspace, hflag]
    simp [hres]
  · intro hcwd r hr
    rw [← hcwd]
    exact main r hr

/-- C5 witness: a fresh create after an undo on the fresh manager
succeeds, and the following redo fails with the nothing-to-redo error. -/
theorem push_invalidates_redo_witness :
    (createFile (undo wsFresh).2 ⟨false, ["a"]⟩ "x" {}).1.success = true ∧
    (redo (createFile (undo wsFresh).2 ⟨false, ["a"]⟩ "x" {}).2).1.error =
      some ErrMsg.nothingToRedo :=
  ⟨by decide,
    (push_invalidates_redo.2 wsFresh ⟨false, ["a"]⟩ "x" {} (by decide)).2⟩

/-- C7 witness: a create over an existing file without the overwrite flag
fails and leaves the state unchanged. -/
theorem mutation_atomicity_witness :
    (createFile wsWithFile ⟨false, ["f"]⟩ "zz" {}).1.success = false ∧
    (createFile wsWithFile ⟨false, ["f"]⟩ "zz" {}).2 = wsWithFile :=
  ⟨by decide, mutation_atomicity.1 wsWithFile ⟨false, ["f"]⟩ "zz" {} (by decide)⟩

/-- C2 witness: with the escape flag set, a relative path resolves
successfully to the normalization of the cwd joined with it. -/
theorem resolve_relative_against_cwd_witness :
    (⟨false, ["f"]⟩ : RawPath).absolute = false ∧
    resolveWithinWorkspace wsOtherCwd ⟨false, ["f"]⟩ =
      Except.ok (normSegs (wsOtherCwd.cwd ++ ["f"])) :=
  ⟨rfl, (resolve_relative_against_cwd wsOtherCwd ⟨false, ["f"]⟩ rfl).2.1 rfl⟩

/-! ## C8: edit in insert mode -/

/-- C8 counterexample: inserting into `"a\nb\nc"` with `lineIndex = -1`
yields `"a\nb\nX\nc"`, not the end-of-file clamp `"a\nb\nc\nX"` — JS
splice counts a negative start back from the end. -/
theorem edit_insert_negative_cx :
    ((editFile wsWithFile ⟨false, ["f"]⟩
        { mode := "insert", newContent := "X", line := some (-1) }).2.fs
      ["w", "f"] = some "a\nb\nX\nc") ∧
    ¬((editFile wsWithFile ⟨false, ["f"]⟩
        { mode := "insert", newContent := "X", line := some (-1) }).2.fs
      ["w", "f"] = some "a\nb\nc\nX") := by
  exact ⟨by decide, by decide⟩

/-- Evaluation of a successful insert-mode edit: the file becomes the
line list spliced at the computed position. -/
theorem editFile_insert_eval (s : FMState) (p : RawPath) (rp : List String)
    (content : String) (options : EditOpts)
    (hm : options.mode = "insert")
    (hr : resolveWithinWorkspace s p = Except.ok rp)
    (hc : s.fs rp = some content) (hf : s.fsFail rp = false) :
    (editFile s p options).1.success = true ∧
    (editFile s p options).2.fs rp =
      some (String.intercalate "\n"
        ((splitLines content).take
            (match options.line with
              | some i => spliceIndex (splitLines content).length i
              | none => (splitLines content).length) ++
          [options.newContent] ++
          (splitLines content).drop
            (match options.line with
              | some i => spliceIndex (splitLines content).length i
              | none => (splitLines content).length))) := by
  have hedit : editContent content options =
      Except.ok (String.intercalate "\n"
        ((splitLines content).take
            (match options.line with
              | some i => spliceIndex (splitLines content).length i
              | none => (splitLines content).length) ++
          [options.newContent] ++
          (splitLines content).drop
            (match options.line with
              | some i => spliceIndex (splitLines content).length i
              | none => (splitLines content).length))) := by
    unfold editContent
    rw [hm]
    simp
  unfold editFile
  rw [hr]
  simp only [hc, hedit, hf]
  simp [applyWrite, pushHistory, setFS]

/-- C8 (corrected): in insert mode the new line is inserted at the splice
position, shifting subsequent lines down: an in-range `lineIndex` inserts
at that index, an above-range or unspecified `lineIndex` clamps to
end-of-file, but a NEGATIVE `lineIndex` counts back from the end of the
file (clamped to the start) instead of clamping to end-of-file. -/
theorem edit_insert_splice :
    ∀ (s : FMState) (p : RawPath) (rp : List String) (content : String)
      (options : EditOpts),
      options.mode = "insert" →
      resolveWithinWorkspace s p = Except.ok rp →
      s.fs rp = some content →
      s.fsFail rp = false →
      ((editFile s p options).1.success = true ∧
       (options.line = none →
         (editFile s p options).2.fs rp =
           some (String.intercalate "\n"
             (splitLines content ++ [options.newContent]))) ∧
       (∀ i : Int, options.line = some i →
         ((splitLines content).length : Int) ≤ i →
         (editFile s p options).2.fs rp =
           some (String.intercalate "\n"
             (splitLines content ++ [options.newContent]))) ∧
       (∀ i : Int, options.line = some i → 0 ≤ i →
         i ≤ ((splitLines content).length : Int) →
         (editFile s p options).2.fs rp =
           some (String.intercalate "\n"
             ((splitLines content).take i.toNat ++ [options.newContent] ++
              (splitLines content).drop i.toNat))) ∧
       (∀ i : Int, options.line = some i → i < 0 →
         (editFile s p options).2.fs rp =
           some (String.intercalate "\n"
             ((splitLines content).take
                ((splitLines content).length -
                  min (-i).toNat (splitLines content).length) ++
              [options.newContent] ++
              (splitLines content).drop
                ((splitLines content).length -
                  min (-i).toNat (splitLines content).length))))) := by
  intro s p rp content options hm hr hc hf
  obtain ⟨hsucc, heval⟩ := editFile_insert_eval s p rp content options hm hr hc hf
  refine ⟨hsucc, ?_, ?_, ?_, ?_⟩
  · intro hline
    rw [heval, hline]
    simp
  · intro i hline hge
    rw [heval, hline]
    have hpos : spliceIndex (splitLines content).length i =
        (splitLines content).length := by
      simp only [spliceIndex]
      split <;> omega
    simp [hpos]
  · intro i hline h0 hle
    rw [heval, hline]
    have hpos : spliceIndex (splitLines content).length i = i.toNat := by
      simp only [spliceIndex]
      split <;> omega
    simp [hpos]
  · intro i hline hneg
    rw [heval, hline]
    have hpos : spliceIndex (splitLines content).length i =
        (splitLines content).length -
          min (-i).toNat (splitLines content).length := by
      simp only [spliceIndex]
      split <;> omega
    simp [hpos]

/-- C8 witness: inserting `"X"` at index 1 of `"a\nb\nc"` (in range)
splices it between the first and second line. -/
theorem edit_insert_splice_witness :
    resolveWithinWorkspace wsWithFile ⟨false, ["f"]⟩ = Except.ok ["w", "f"] ∧
    wsWithFile.fs ["w", "f"] = some "a\nb\nc" ∧
    (editFile wsWithFile ⟨false, ["f"]⟩
        { mode := "insert", newContent := "X", line := some 1 }).2.fs
      ["w", "f"] =
      some (String.intercalate "\n"
        ((splitLines "a\nb\nc").take (Int.toNat 1) ++ ["X"] ++
         (splitLines "a\nb\nc").drop (Int.toNat 1))) :=
  ⟨by rfl, by rfl,
    (edit_insert_splice wsWithFile ⟨false, ["f"]⟩ ["w", "f"] "a\nb\nc"
      { mode := "insert", newContent := "X", line := some 1 }
      rfl (by rfl) (by rfl) (by rfl)).2.2.2.1 1 rfl (by decide) (by decide)⟩

/-! ## C1: the sandbox containment check -/

theorem stripCommon_fst_nil_iff :
    ∀ a b : List String, (stripCommon a b).1 = [] ↔ a.isPrefixOf b = true
  | [], b => by
    simp [stripCommon, List.isPrefixOf]
  | x :: as, [] => by
    simp [stripCommon, List.isPrefixOf]
  | x :: as, y :: bs => by
    by_cases h : x = y
    · subst h
      have ih := stripCommon_fst_nil_iff as bs
      simp [stripCommon, List.isPrefixOf, ih]
    · simp [stripCommon, List.isPrefixOf, h]

theorem joinSegs_dotdot (rest : List String) :
    strStartsWith (joinSegs (".." :: rest)) ".." = true := by
  cases rest with
  | nil => decide
  | cons a l =>
    show strStartsWith (".." ++ "/" ++ joinSegs (a :: l)) ".." = true
    simp only [strStartsWith, String.data_append, List.append_assoc,
      List.isPrefixOf_iff_prefix]
    exact List.prefix_append _ _

/-- C1 counterexample: `/w/..hidden` is nested under the workspace root
`/w`, yet the sandbox rejects it, because the relative path `..hidden`
starts with the two characters `..` — the out-of-workspace failure is not
equivalent to the path lying outside the root. -/
theorem resolve_nested_rejected_cx :
    resolveWithinWorkspace wsFresh ⟨true, ["w", "..hidden"]⟩ =
      Except.error (ErrMsg.outOfWorkspace ⟨true, ["w", "..hidden"]⟩) ∧
    pathResolve wsFresh.cwd ⟨true, ["w", "..hidden"]⟩ = ["w", "..hidden"] ∧
    wsFresh.workspaceRoot.isPrefixOf ["w", "..hidden"] = true := by
  exact ⟨by rfl, by rfl, by decide⟩

/-- C1 (corrected): with `allowOutsideWorkspace` set, every path resolves
successfully; with it unset, the operation fails with the out-of-workspace
error exactly when the rendered relative path from the root starts with
`..` or is absolute — in particular every resolved path NOT nested under
the workspace root is rejected, but (per the counterexample) some nested
paths whose first segment below the root begins with `..` are rejected as
well. -/
theorem resolve_sandbox_characterization :
    ∀ (s : FMState) (p : RawPath),
      (s.allowOutsideWorkspace = true →
        resolveWithinWorkspace s p = Except.ok (pathResolve s.cwd p)) ∧
      (s.allowOutsideWorkspace = false →
        ((resolveWithinWorkspace s p =
            Except.error (ErrMsg.outOfWorkspace p)) ↔
          (strStartsWith
              (joinSegs (relSegs s.workspaceRoot (pathResolve s.cwd p)))
              ".." ||
            pathIsAbsolute
              (joinSegs (relSegs s.workspaceRoot (pathResolve s.cwd p))))
            = true)) ∧
      (s.allowOutsideWorkspace = false →
        s.workspaceRoot.isPrefixOf (pathResolve s.cwd p) = false →
        resolveWithinWorkspace s p =
          Except.error (ErrMsg.outOfWorkspace p)) := by
  intro s p
  refine ⟨?_, ?_, ?_⟩
  · intro hflag
    simp [resolveWithinWorkspace, hflag]
  · intro hflag
    by_cases hchk : (strStartsWith
        (joinSegs (relSegs s.workspaceRoot (pathResolve s.cwd p))) ".." ||
      pathIsAbsolute
        (joinSegs (relSegs s.workspaceRoot (pathResolve s.cwd p)))) = true
    · simp [resolveWithinWorkspace, hflag, hchk]
    · simp [resolveWithinWorkspace, hflag, hchk]
  · intro hflag hpre
    have h1 : (stripCommon s.workspaceRoot (pathResolve s.cwd p)).1 ≠ [] := by
      intro hnil
      rw [(stripCommon_fst_nil_iff _ _).mp hnil] at hpre
      cases hpre
    obtain ⟨f, fr, hf⟩ := List.exists_cons_of_ne_nil h1
    have hchk : strStartsWith
        (joinSegs (relSegs s.workspaceRoot (pathResolve s.cwd p))) ".."
        = true := by
      simp only [relSegs]
      rw [hf, List.length_cons, List.replicate_succ, List.cons_append]
      exact joinSegs_dotdot _
    simp [resolveWithinWorkspace, hflag, hchk]

/-- C1 witness: the absolute path `/x/f` lies outside the root `/w` and is
rejected with the out-of-workspace error when the flag is unset. -/
theorem resolve_sandbox_characterization_witness :
    wsFresh.allowOutsideWorkspace = false ∧
    wsFresh.workspaceRoot.isPrefixOf
      (pathResolve wsFresh.cwd ⟨true, ["x", "f"]⟩) = false ∧
    resolveWithinWorkspace wsFresh ⟨true, ["x", "f"]⟩ =
      Except.error (ErrMsg.outOfWorkspace ⟨true, ["x", "f"]⟩) :=
  ⟨rfl, by decide,
    (resolve_sandbox_characterization wsFresh ⟨true, ["x", "f"]⟩).2.2 rfl
      (by decide)⟩

/-! ## Invariant preservation for mutations -/

theorem StackInv_dropLast :
    ∀ (u : List HistoryEntry) (F : List String → Option String),
      StackInv u F → StackInv u.dropLast F
  | [], _, _ => trivial
  | [e], F, _ => by
    simp [List.dropLast, StackInv]
  | e :: e2 :: u, F, h => by
    rw [List.dropLast_cons₂]
    exact ⟨h.1, StackInv_dropLast (e2 :: u) _ h.2⟩

theorem StackInv_push (e : HistoryEntry) (u : List HistoryEntry)
    (F : List String → Option String) (hold : e.oldContent = F e.path)
    (h : StackInv u F) :
    StackInv (e :: u) (setFS F e.path e.newContent) := by
  have hkey : setFS (setFS F e.path e.newContent) e.path e.oldContent = F := by
    rw [setFS_setFS, hold, setFS_self]
  exact ⟨by rw [hkey], by rw [hkey]; exact h⟩

theorem mutOK_preserves (s s' : FMState) (h : MutOK s s') :
    s'.fsFail = s.fsFail ∧ s'.maxUndoHistory = s.maxUndoHistory ∧
    s'.redoStack = [] ∧
    s'.undoStack.length ≤ s.undoStack.length + 1 ∧
    (StackInv s.undoStack s.fs → StackInv s'.undoStack s'.fs) ∧
    ((∀ e ∈ s.undoStack, s.fsFail e.path = false) →
      ∀ e ∈ s'.undoStack, s'.fsFail e.path = false) ∧
    (BoundInv s → BoundInv s') := by
  obtain ⟨e, le, hold, hfail, hs'⟩ := h
  subst hs'
  refine ⟨rfl, rfl, rfl, ?_, ?_, ?_, ?_⟩
  · simp only [pushHistory]
    split
    · simp
    · simp
  · intro hinv
    have hpush := StackInv_push e s.undoStack s.fs hold hinv
    simp only [pushHistory]
    split
    · exact StackInv_dropLast _ _ hpush
    · exact hpush
  · intro hw x hx
    simp only [pushHistory] at hx
    have hx' : x ∈ e :: s.undoStack := by
      revert hx
      split
      · exact fun hx => List.mem_of_mem_dropLast hx
      · exact id
    rcases List.mem_cons.mp hx' with h1 | h1
    · rw [h1]
      exact hfail
    · exact hw x h1
  · intro hb
    unfold BoundInv at *
    simp only [pushHistory]
    split <;> rename_i hlen <;> simp at hlen ⊢ <;> omega

theorem applyOp_preserves (s : FMState) (op : FMOp) :
    (BoundInv s → BoundInv (applyOp s op)) ∧
    (applyOp s op).maxUndoHistory = s.maxUndoHistory := by
  cases op with
  | create p c o =>
    show (BoundInv s → BoundInv (createFile s p c o).2) ∧
      (createFile s p c o).2.maxUndoHistory = s.maxUndoHistory
    by_cases hs : (createFile s p c o).1.success = true
    · obtain ⟨-, hmax, -, -, -, -, hb⟩ :=
        mutOK_preserves _ _ (createFile_success_mutOK s p c o hs)
      exact ⟨hb, hmax⟩
    · rw [createFile_fail_eq s p c o (by simpa using hs)]
      exact ⟨id, rfl⟩
  | read p =>
    show (BoundInv s → BoundInv (readFile s p).2) ∧
      (readFile s p).2.maxUndoHistory = s.maxUndoHistory
    rw [readFile_state_eq]
    exact ⟨id, rfl⟩
  | edit p o =>
    show (BoundInv s → BoundInv (editFile s p o).2) ∧
      (editFile s p o).2.maxUndoHistory = s.maxUndoHistory
    by_cases hs : (editFile s p o).1.success = true
    · obtain ⟨-, hmax, -, -, -, -, hb⟩ :=
        mutOK_preserves _ _ (editFile_success_mutOK s p o hs)
      exact ⟨hb, hmax⟩
    · rw [editFile_fail_eq s p o (by simpa using hs)]
      exact ⟨id, rfl⟩
  | delete p =>
    show (BoundInv s → BoundInv (deleteFile s p).2) ∧
      (deleteFile s p).2.maxUndoHistory = s.maxUndoHistory
    by_cases hs : (deleteFile s p).1.success = true
    · obtain ⟨-, hmax, -, -, -, -, hb⟩ :=
        mutOK_preserves _ _ (deleteFile_success_mutOK s p hs)
      exact ⟨hb, hmax⟩
    · rw [deleteFile_fail_eq s p (by simpa using hs)]
      exact ⟨id, rfl⟩
  | list p =>
    show (BoundInv s → BoundInv (listFiles s p).2) ∧
      (listFiles s p).2.maxUndoHistory = s.maxUndoHistory
    rw [listFiles_state_eq]
    exact ⟨id, rfl⟩
  | undoOp =>
    show (BoundInv s → BoundInv (undo s).2) ∧
      (undo s).2.maxUndoHistory = s.maxUndoHistory
    match hst : s.undoStack with
    | [] =>
      rw [undo_empty s hst]
      exact ⟨id, rfl⟩
    | op :: rest =>
      unfold BoundInv
      by_cases hf : s.fsFail op.path = true
      · simp only [undo, hst, hf, if_pos]
        refine ⟨?_, trivial⟩
        intro hb
        simp only [List.length_cons] at hb ⊢
        omega
      · simp only [undo, hst, hf, if_neg, Bool.false_eq_true, if_false]
        refine ⟨?_, trivial⟩
        intro hb
        simp only [List.length_cons] at hb ⊢
        omega
  | redoOp =>
    show (BoundInv s → BoundInv (redo s).2) ∧
      (redo s).2.maxUndoHistory = s.maxUndoHistory
    match hst : s.redoStack with
    | [] =>
      rw [redo_empty s hst]
      exact ⟨id, rfl⟩
    | op :: rest =>
      unfold BoundInv
      by_cases hf : s.fsFail op.path = true
      · simp only [redo, hst, hf, if_pos]
        refine ⟨?_, trivial⟩
        intro hb
        simp only [List.length_cons] at hb ⊢
        omega
      · simp only [redo, hst, hf, if_neg, Bool.false_eq_true, if_false]
        refine ⟨?_, trivial⟩
        intro hb
        simp only [List.length_cons] at hb ⊢
        omega

theorem undo_step_fail (s : FMState) (op : HistoryEntry)
    (rest : List HistoryEntry) (hst : s.undoStack = op :: rest)
    (hf : s.fsFail op.path = true) :
    (undo s).2 = { s with undoStack := rest } := by
  simp [undo, hst, hf]

theorem undo_step_ok (s : FMState) (op : HistoryEntry)
    (rest : List HistoryEntry) (hst : s.undoStack = op :: rest)
    (hf : s.fsFail op.path = false) :
    (undo s).2 = { s with
      undoStack := rest,
      fs := setFS s.fs op.path op.oldContent,
      redoStack := op :: s.redoStack } := by
  simp [undo, hst, hf]

theorem redo_step_fail (s : FMState) (op : HistoryEntry)
    (rest : List HistoryEntry) (hst : s.redoStack = op :: rest)
    (hf : s.fsFail op.path = true) :
    (redo s).2 = { s with redoStack := rest } := by
  simp [redo, hst, hf]

theorem redo_step_ok (s : FMState) (op : HistoryEntry)
    (rest : List HistoryEntry) (hst : s.redoStack = op :: rest)
    (hf : s.fsFail op.path = false) :
    (redo s).2 = { s with
      redoStack := rest,
      fs := setFS s.fs op.path op.newContent,
      undoStack := op :: s.undoStack } := by
  simp [redo, hst, hf]

theorem runOps_bound (ops : List FMOp) : ∀ s : FMState, BoundInv s →
    BoundInv (runOps s ops) ∧
    (runOps s ops).maxUndoHistory = s.maxUndoHistory := by
  induction ops with
  | nil =>
    intro s hb
    exact ⟨hb, rfl⟩
  | cons op ops ih =>
    intro s hb
    obtain ⟨h1, h2⟩ := applyOp_preserves s op
    obtain ⟨h3, h4⟩ := ih (applyOp s op) (h1 hb)
    exact ⟨h3, by rw [show runOps s (op :: ops) = runOps (applyOp s op) ops
      from rfl, h4, h2]⟩

theorem undoN_reach (k : Nat) : ∀ s : FMState,
    (undoN k s).undoStack = s.undoStack.drop k ∧
    (∀ x ∈ (undoN k s).redoStack,
      x ∈ s.redoStack ∨ x ∈ s.undoStack.take k) := by
  induction k with
  | zero =>
    intro s
    simp [undoN]
  | succ k ih =>
    intro s
    have hstep : undoN (k + 1) s = undoN k (undo s).2 := rfl
    rw [hstep]
    match hst : s.undoStack with
    | [] =>
      have hid : (undo s).2 = s := by
        rw [undo_empty s hst]
      rw [hid]
      obtain ⟨h1, h2⟩ := ih s
      constructor
      · rw [h1, hst]
        simp
      · intro x hx
        rcases h2 x hx with h | h
        · exact Or.inl h
        · rw [hst] at h
          simp at h
    | op :: rest =>
      by_cases hf : s.fsFail op.path = true
      · rw [undo_step_fail s op rest hst hf]
        obtain ⟨ih1, ih2⟩ := ih { s with undoStack := rest }
        constructor
        · rw [ih1]
          simp [List.drop_succ_cons]
        · intro x hx
          rcases ih2 x hx with h | h
          · exact Or.inl h
          · refine Or.inr ?_
            rw [List.take_succ_cons]
            exact List.mem_cons_of_mem _ h
      · rw [undo_step_ok s op rest hst
          (by revert hf; cases s.fsFail op.path <;> simp)]
        obtain ⟨ih1, ih2⟩ := ih { s with
          undoStack := rest,
          fs := setFS s.fs op.path op.oldContent,
          redoStack := op :: s.redoStack }
        constructor
        · rw [ih1]
          simp [List.drop_succ_cons]
        · intro x hx
          rcases ih2 x hx with h | h
          · rcases List.mem_cons.mp h with h1 | h1
            · refine Or.inr ?_
              rw [List.take_succ_cons, h1]
              exact List.mem_cons_self _ _
            · exact Or.inl h1
          · refine Or.inr ?_
            rw [List.take_succ_cons]
            exact List.mem_cons_of_mem _ h

/-! ## C6: the undo stack is bounded with FIFO eviction -/

/-- C6 (confirmed): along any operation sequence from a fresh manager the
undo stack never exceeds the configured bound; a push at capacity evicts
the oldest (bottom) entry; and undo calls only ever traverse the current
(post-eviction) stack top-down — the popped entries land on the redo
stack and the remaining stack is a suffix, so an evicted entry is never
reached by any sequence of undo calls. -/
theorem undo_stack_bounded :
    ∀ (s : FMState) (ops : List FMOp) (e : HistoryEntry),
      s.undoStack = [] → s.redoStack = [] →
      ((runOps s ops).undoStack.length ≤ s.maxUndoHistory ∧
       (∀ s' : FMState, s'.undoStack.length = s'.maxUndoHistory →
          (pushHistory s' e).undoStack = (e :: s'.undoStack).dropLast) ∧
       (∀ (s' : FMState) (k : Nat),
          (undoN k s').undoStack = s'.undoStack.drop k ∧
          ∀ x ∈ (undoN k s').redoStack,
            x ∈ s'.redoStack ∨ x ∈ s'.undoStack.take k)) := by
  intro s ops e hu hr
  refine ⟨?_, ?_, fun s' k => undoN_reach k s'⟩
  · have hb : BoundInv s := by
      unfold BoundInv
      rw [hu, hr]
      simp
    obtain ⟨h1, h2⟩ := runOps_bound ops s hb
    unfold BoundInv at h1
    rw [h2] at h1
    omega
  · intro s' hcap
    simp only [pushHistory]
    rw [if_pos (by simp [List.length_cons, hcap])]

/-- C6 witness: with a bound of two, three creates then an undo and a redo
leave at most two entries on the undo stack. -/
theorem undo_stack_bounded_witness :
    ({ wsFresh with maxUndoHistory := 2 } : FMState).undoStack = [] ∧
    (runOps { wsFresh with maxUndoHistory := 2 } opsBound).undoStack.length ≤
      ({ wsFresh with maxUndoHistory := 2 } : FMState).maxUndoHistory :=
  ⟨rfl, (undo_stack_bounded { wsFresh with maxUndoHistory := 2 } opsBound
      ⟨"", [], none, none⟩ rfl rfl).1⟩

/-! ## C4: fail-fast plan execution -/

theorem fmAfter_shift (interp : Nat → Except ErrMsg (List PAction)) :
    ∀ (k : Nat) (fm : FMState) (i : Nat),
      fmAfter interp (executeStep (interp i) fm).2 (i + 1) k =
        fmAfter interp fm i (k + 1) := by
  intro k
  induction k with
  | zero =>
    intro fm i
    rfl
  | succ k ih =>
    intro fm i
    show (executeStep (interp (i + 1 + k))
        (fmAfter interp (executeStep (interp i) fm).2 (i + 1) k)).2 = _
    rw [ih fm i]
    have heq : i + 1 + k = i + (k + 1) := by omega
    rw [heq]
    rfl

theorem planLoop_fail (interp : Nat → Except ErrMsg (List PAction)) :
    ∀ (j : Nat) (rem : List String) (fm : FMState) (i : Nat)
      (acc : List StepResult),
      j < rem.length →
      (∀ k, k < j →
        (executeStep (interp (i + k)) (fmAfter interp fm i k)).1.success
          = true) →
      (executeStep (interp (i + j)) (fmAfter interp fm i j)).1.success
        = false →
      ∃ rs : List StepResult,
        rs.length = j + 1 + acc.length ∧
        planLoop interp fm i rem acc =
          ({ success := false, completedSteps := some (i + j),
             results := rs.reverse }, fmAfter interp fm i (j + 1)) ∧
        planLoop interp fm i rem acc =
          planLoop interp fm i (rem.take (j + 1)) acc := by
  intro j
  induction j with
  | zero =>
    intro rem fm i acc hlen hprev hfail
    match rem with
    | step :: rest =>
      have hfail0 : (executeStep (interp i) fm).1.success = false := hfail
      refine ⟨(executeStep (interp i) fm).1 :: acc,
        by simp only [List.length_cons]; omega, ?_, ?_⟩
      · simp only [planLoop]
        rw [if_neg (by simp [hfail0])]
        exact rfl
      · simp only [List.take_succ_cons, List.take_zero, planLoop]
        rw [if_neg (by simp [hfail0]), if_neg (by simp [hfail0])]
  | succ j ih =>
    intro rem fm i acc hlen hprev hfail
    match rem with
    | step :: rest =>
      have h0 : (executeStep (interp i) fm).1.success = true := by
        have h := hprev 0 (Nat.succ_pos j)
        have heq : i + 0 = i := by omega
        rw [heq] at h
        exact h
      have hstep : planLoop interp fm i (step :: rest) acc =
          planLoop interp (executeStep (interp i) fm).2 (i + 1) rest
            ((executeStep (interp i) fm).1 :: acc) := by
        simp only [planLoop]
        rw [if_pos h0]
      have hprev' : ∀ k, k < j →
          (executeStep (interp (i + 1 + k))
            (fmAfter interp (executeStep (interp i) fm).2 (i + 1) k)).1.success
            = true := by
        intro k hk
        rw [fmAfter_shift]
        have h := hprev (k + 1) (by omega)
        have heq : i + (k + 1) = i + 1 + k := by omega
        rw [heq] at h
        exact h
      have hfail' : (executeStep (interp (i + 1 + j))
          (fmAfter interp (executeStep (interp i) fm).2 (i + 1) j)).1.success
          = false := by
        rw [fmAfter_shift]
        have heq : i + (j + 1) = i + 1 + j := by omega
        rw [heq] at hfail
        exact hfail
      obtain ⟨rs, hlen', heq', htake'⟩ :=
        ih rest (executeStep (interp i) fm).2 (i + 1)
          ((executeStep (interp i) fm).1 :: acc) (by simpa using hlen)
          hprev' hfail'
      refine ⟨rs, ?_, ?_, ?_⟩
      · simp at hlen' ⊢
        omega
      · rw [hstep, heq', fmAfter_shift]
        have h1 : i + 1 + j = i + (j + 1) := by omega
        rw [h1]
      · rw [hstep, htake']
        simp only [List.take_succ_cons, planLoop]
        rw [if_pos h0]

/-- C4 (confirmed): when steps run in index order and every step before
`j` succeeds while step `j` fails (the interpreter call failed or a
mutation of the step reported failure), the plan run returns
`success = false`, reports exactly `j` completed steps together with the
partial result list (`j + 1` step results, ending with the failing one),
and equals the run of only the first `j + 1` steps — no later step is
ever invoked. -/
theorem executePlan_fail_fast :
    ∀ (interp : Nat → Except ErrMsg (List PAction)) (fm : FMState)
      (steps : List String) (j : Nat),
      j < steps.length →
      (∀ k, k < j →
        (executeStep (interp k) (fmAfter interp fm 0 k)).1.success = true) →
      (executeStep (interp j) (fmAfter interp fm 0 j)).1.success = false →
      ((executePlan interp fm steps).1.success = false ∧
       (executePlan interp fm steps).1.completedSteps = some j ∧
       (executePlan interp fm steps).1.results.length = j + 1 ∧
       executePlan interp fm steps =
         executePlan interp fm (steps.take (j + 1))) := by
  intro interp fm steps j hlen hprev hfail
  have hprev0 : ∀ k, k < j →
      (executeStep (interp (0 + k)) (fmAfter interp fm 0 k)).1.success
        = true := by
    intro k hk
    have heq : 0 + k = k := by omega
    rw [heq]
    exact hprev k hk
  have hfail0 : (executeStep (interp (0 + j)) (fmAfter interp fm 0 j)).1.success
      = false := by
    have heq : 0 + j = j := by omega
    rw [heq]
    exact hfail
  obtain ⟨rs, hlen', heq', htake'⟩ :=
    planLoop_fail interp j steps fm 0 [] hlen hprev0 hfail0
  have hzero : 0 + j = j := by omega
  refine ⟨?_, ?_, ?_, ?_⟩
  · show (planLoop interp fm 0 steps []).1.success = false
    rw [heq']
  · show (planLoop interp fm 0 steps []).1.completedSteps = some j
    rw [heq']
    simp [hzero]
  · show (planLoop interp fm 0 steps []).1.results.length = j + 1
    rw [heq']
    simp at hlen' ⊢
    omega
  · exact htake'

/-- C4 witness: a three-step plan whose second step fails (its delete
action hits a missing file) reports exactly one completed step. -/
theorem executePlan_fail_fast_witness :
    (1 < (["s1", "s2", "s3"] : List String).length) ∧
    (executeStep (interpFailAt1 1)
      (fmAfter interpFailAt1 wsFresh 0 1)).1.success = false ∧
    (executePlan interpFailAt1 wsFresh ["s1", "s2", "s3"]).1.completedSteps
      = some 1 :=
  ⟨by decide, by decide,
    (executePlan_fail_fast interpFailAt1 wsFresh ["s1", "s2", "s3"] 1
      (by decide) (by decide) (by decide)).2.1⟩

/-! ## C3: undo/redo round trip -/

theorem applyMut_success_mutOK (s : FMState) (m : Mutation)
    (h : (applyMut s m).1.success = true) : MutOK s (applyMut s m).2 := by
  cases m with
  | create p c o => exact createFile_success_mutOK s p c o h
  | edit p o => exact editFile_success_mutOK s p o h
  | delete p => exact deleteFile_success_mutOK s p h

theorem runMuts_inv (ms : List Mutation) : ∀ s : FMState,
    allOk s ms = true → StackInv s.undoStack s.fs →
    (∀ e ∈ s.undoStack, s.fsFail e.path = false) → s.redoStack = [] →
    StackInv (runMuts s ms).undoStack (runMuts s ms).fs ∧
    (∀ e ∈ (runMuts s ms).undoStack, (runMuts s ms).fsFail e.path = false) ∧
    (runMuts s ms).redoStack = [] ∧
    (runMuts s ms).undoStack.length ≤ s.undoStack.length + ms.length ∧
    (runMuts s ms).fsFail = s.fsFail := by
  induction ms with
  | nil =>
    intro s _ h1 h2 h3
    exact ⟨h1, h2, h3, Nat.le_refl _, rfl⟩
  | cons m ms ih =>
    intro s hok h1 h2 h3
    have hok' : (applyMut s m).1.success = true ∧
        allOk (applyMut s m).2 ms = true := by
      simpa [allOk, Bool.and_eq_true] using hok
    obtain ⟨hff, hmax, hredo, hlen, hinv, hw, -⟩ :=
      mutOK_preserves _ _ (applyMut_success_mutOK s m hok'.1)
    have hrun : runMuts s (m :: ms) = runMuts (applyMut s m).2 ms := rfl
    rw [hrun]
    obtain ⟨a, b, c, d, e⟩ :=
      ih (applyMut s m).2 hok'.2 (hinv h1) (hw h2) hredo
    refine ⟨a, b, c, ?_, ?_⟩
    · simp only [List.length_cons]
      omega
    · rw [e, hff]

theorem undoN_add (a b : Nat) : ∀ s : FMState,
    undoN (a + b) s = undoN b (undoN a s) := by
  induction a with
  | zero =>
    intro s
    rw [Nat.zero_add]
    rfl
  | succ a ih =>
    intro s
    have h1 : a + 1 + b = (a + b) + 1 := by omega
    rw [h1]
    show undoN (a + b) (undo s).2 = _
    rw [ih (undo s).2]
    rfl

theorem redoN_add (a b : Nat) : ∀ s : FMState,
    redoN (a + b) s = redoN b (redoN a s) := by
  induction a with
  | zero =>
    intro s
    rw [Nat.zero_add]
    rfl
  | succ a ih =>
    intro s
    have h1 : a + 1 + b = (a + b) + 1 := by omega
    rw [h1]
    show redoN (a + b) (redo s).2 = _
    rw [ih (redo s).2]
    rfl

theorem undoN_empty_fix (m : Nat) : ∀ s : FMState, s.undoStack = [] →
    undoN m s = s := by
  induction m with
  | zero =>
    intro s _
    rfl
  | succ m ih =>
    intro s h
    show undoN m (undo s).2 = s
    have hid : (undo s).2 = s := by rw [undo_empty s h]
    rw [hid]
    exact ih s h

theorem redoN_empty_fix (m : Nat) : ∀ s : FMState, s.redoStack = [] →
    redoN m s = s := by
  induction m with
  | zero =>
    intro s _
    rfl
  | succ m ih =>
    intro s h
    show redoN m (redo s).2 = s
    have hid : (redo s).2 = s := by rw [redo_empty s h]
    rw [hid]
    exact ih s h

theorem undo_all : ∀ (u : List HistoryEntry) (s : FMState),
    s.undoStack = u → (∀ e ∈ u, s.fsFail e.path = false) →
    (undoN u.length s).fs = revertAll u s.fs ∧
    (undoN u.length s).undoStack = [] ∧
    (undoN u.length s).redoStack = u.reverse ++ s.redoStack ∧
    (undoN u.length s).fsFail = s.fsFail
  | [], s, hst, _ => ⟨rfl, hst, rfl, rfl⟩
  | e :: u, s, hst, hw => by
    have hf : s.fsFail e.path = false := hw e (List.mem_cons_self e u)
    have hN : undoN (e :: u).length s = undoN u.length (undo s).2 := rfl
    rw [hN, undo_step_ok s e u hst hf]
    obtain ⟨a, b, c, d⟩ := undo_all u { s with
        undoStack := u,
        fs := setFS s.fs e.path e.oldContent,
        redoStack := e :: s.redoStack } rfl
      (fun x hx => hw x (List.mem_cons_of_mem e hx))
    refine ⟨by rw [a]; rfl, b, ?_, d⟩
    rw [c]
    show u.reverse ++ (e :: s.redoStack) = (e :: u).reverse ++ s.redoStack
    rw [List.reverse_cons, List.append_assoc]
    rfl

theorem redo_all : ∀ (r : List HistoryEntry) (s : FMState),
    s.redoStack = r → (∀ e ∈ r, s.fsFail e.path = false) →
    (redoN r.length s).fs = redoAll r s.fs ∧
    (redoN r.length s).redoStack = [] ∧
    (redoN r.length s).undoStack = r.reverse ++ s.undoStack ∧
    (redoN r.length s).fsFail = s.fsFail
  | [], s, hst, _ => ⟨rfl, hst, rfl, rfl⟩
  | e :: r, s, hst, hw => by
    have hf : s.fsFail e.path = false := hw e (List.mem_cons_self e r)
    have hN : redoN (e :: r).length s = redoN r.length (redo s).2 := rfl
    rw [hN, redo_step_ok s e r hst hf]
    obtain ⟨a, b, c, d⟩ := redo_all r { s with
        redoStack := r,
        fs := setFS s.fs e.path e.newContent,
        undoStack := e :: s.undoStack } rfl
      (fun x hx => hw x (List.mem_cons_of_mem e hx))
    refine ⟨by rw [a]; rfl, b, ?_, d⟩
    rw [c]
    show r.reverse ++ (e :: s.undoStack) = (e :: r).reverse ++ s.undoStack
    rw [List.reverse_cons, List.append_assoc]
    rfl

theorem redoAll_append : ∀ (xs ys : List HistoryEntry)
    (F : List String → Option String),
    redoAll (xs ++ ys) F = redoAll ys (redoAll xs F)
  | [], _, _ => rfl
  | _e :: xs, ys, _F => redoAll_append xs ys _

theorem redo_revert : ∀ (u : List HistoryEntry)
    (F : List String → Option String),
    StackInv u F → redoAll u.reverse (revertAll u F) = F
  | [], _, _ => rfl
  | e :: u, F, h => by
    rw [List.reverse_cons, redoAll_append]
    show redoAll [e]
      (redoAll u.reverse (revertAll u (setFS F e.path e.oldContent))) = F
    rw [redo_revert u _ h.2]
    exact h.1

/-- C3 (confirmed): starting from empty stacks, for any sequence of n
mutations that all report success, calling `undo()` n times and then
`redo()` n times restores the filesystem to its exact post-sequence
state (this also holds when entries were evicted by the history bound, in
which case some of the n undo calls fail on the emptied stack without
touching the filesystem), and every undo call beyond the n-th fails with
the nothing-to-undo error. -/
theorem undo_redo_roundtrip :
    ∀ (s₀ : FMState) (ms : List Mutation),
      s₀.undoStack = [] → s₀.redoStack = [] → allOk s₀ ms = true →
      ((redoN ms.length (undoN ms.length (runMuts s₀ ms))).fs =
        (runMuts s₀ ms).fs ∧
       ∀ m : Nat,
         (undo (undoN (ms.length + m) (runMuts s₀ ms))).1.success = false ∧
         (undo (undoN (ms.length + m) (runMuts s₀ ms))).1.error =
           some ErrMsg.nothingToUndo) := by
  intro s₀ ms hu hr hok
  set s₁ := runMuts s₀ ms with hs₁
  obtain ⟨hinv, hw, hredo, hlen, hff⟩ :=
    runMuts_inv ms s₀ hok (by rw [hu]; exact trivial) (by rw [hu]; simp) hr
  set U := s₁.undoStack with hU
  have hUlen : U.length ≤ ms.length := by
    rw [hu] at hlen
    simpa using hlen
  obtain ⟨ha, hb, hc, hd⟩ := undo_all U s₁ rfl hw
  have hundoN : undoN ms.length s₁ = undoN U.length s₁ := by
    have hsplit : ms.length = U.length + (ms.length - U.length) := by omega
    rw [hsplit, undoN_add]
    exact undoN_empty_fix _ _ hb
  have hcr : (undoN U.length s₁).redoStack = U.reverse := by
    rw [hc, hredo]
    simp
  have hRlen : (undoN U.length s₁).redoStack.length = U.length := by
    rw [hcr, List.length_reverse]
  have hwr : ∀ e ∈ (undoN U.length s₁).redoStack,
      (undoN U.length s₁).fsFail e.path = false := by
    intro x hx
    rw [hcr] at hx
    rw [hd]
    exact hw x (List.mem_reverse.mp hx)
  obtain ⟨ra, rb, rc, rd⟩ :=
    redo_all ((undoN U.length s₁).redoStack) (undoN U.length s₁) rfl hwr
  constructor
  · rw [hundoN]
    have hsplit : ms.length = U.length + (ms.length - U.length) := by omega
    rw [hsplit, redoN_add]
    have hUeq : redoN U.length (undoN U.length s₁) =
        redoN ((undoN U.length s₁).redoStack.length) (undoN U.length s₁) := by
      rw [hRlen]
    rw [hUeq, redoN_empty_fix _ _ rb, ra, hcr, ha]
    exact redo_revert U s₁.fs hinv
  · intro m
    have hextra : undoN (ms.length + m) s₁ = undoN U.length s₁ := by
      rw [undoN_add, hundoN, undoN_empty_fix _ _ hb]
    rw [hextra, undo_empty _ hb]
    exact ⟨rfl, rfl⟩

/-- C3 witness: three successful mutations (create, append-edit, create),
three undos, three redos restore the filesystem; the fourth undo fails
with the nothing-to-undo error. -/
theorem undo_redo_roundtrip_witness :
    allOk wsFresh msRoundTrip = true ∧
    (redoN msRoundTrip.length
        (undoN msRoundTrip.length (runMuts wsFresh msRoundTrip))).fs =
      (runMuts wsFresh msRoundTrip).fs ∧
    (undo (undoN (msRoundTrip.length + 0)
        (runMuts wsFresh msRoundTrip))).1.error =
      some ErrMsg.nothingToUndo :=
  ⟨by decide,
    (undo_redo_roundtrip wsFresh msRoundTrip rfl rfl (by decide)).1,
    ((undo_redo_roundtrip wsFresh msRoundTrip rfl rfl (by decide)).2 0).2⟩
